import Mathlib

/-!
# Verification of the peep sampling / history / process-view core

This file gives a shallow embedding, in Lean 4, of the computational core of
the `peep` system monitor (an Electron/React application):

* the network rate derivation and history-buffer update performed by the
  `fetchData` closure in the renderer root component (`App.tsx`, bundled in
  `src/shared/types.ts` of the snapshot we verify),
* the history ring-buffer update `setHistory` (append + `slice(-900)`),
* the process-tree construction `buildProcessTree` and the
  filter/sort pipeline `sortedProcesses` of `ProcessList.tsx`,
* an event-level model of the polling loop (`setInterval(fetchData, 2000)`
  with cleanup `clearInterval(interval)`).

JavaScript numbers are modelled as rationals (`ℚ`); where a computation can
produce `NaN`/`Infinity` (an unguarded division) we model the value as
`Option ℚ`, with `none` standing for a non-finite result.  JavaScript strings
are modelled as `List Char`; `toLowerCase` is modelled by `Char.toLower` and
`localeCompare` by code-point lexicographic comparison.
-/

namespace Peep

/-- A JavaScript number that may be non-finite: `some q` is the finite value
`q`, `none` stands for `NaN` or `±Infinity` (the result of dividing by 0). -/
abbrev JSVal := Option ℚ

/-- JavaScript division `a / b`: non-finite (`none`) when `b = 0`
(`0/0 = NaN`, `a/0 = ±Infinity`), otherwise the exact quotient. -/
def jsDiv (a b : ℚ) : JSVal :=
  if b = 0 then none else some (a / b)

/-! ## Rate derivation (`fetchData`, App.tsx lines 479–515)

The renderer computes, each cycle,
`networkRxRate = timeDelta > 0 ? (networkRx - prevNetworkRx) / timeDelta : 0`
and records `Math.max(0, networkRxRate)` in both the patched system info and
the new history point.  The spec names the composition `computeRate`. -/

/-- The raw per-second rate:
`timeDelta > 0 ? (current - previous) / timeDelta : 0`. -/
def rateRaw (current previous timeDelta : ℚ) : ℚ :=
  if 0 < timeDelta then (current - previous) / timeDelta else 0

/-- The recorded rate `Math.max(0, rate)` (App.tsx lines 499/500 and 514/515);
this is the `computeRate` of the specification. -/
def computeRate (current previous timeDelta : ℚ) : ℚ :=
  max 0 (rateRaw current previous timeDelta)

/-! ## The snapshot data model (`SystemInfo` as consumed by the renderer)

The renderer accesses `info?.cpu?.usage ?? 0`, `info?.cpu?.perCore ?? []`,
`info?.memory ? used/total*100 : 0`,
`info?.memory && totalSwap > 0 ? usedSwap/totalSwap*100 : 0`,
`info?.disk?.read ?? 0`, `info?.network?.rx ?? 0`, … so every layer is
optional; optional layers are modelled with `Option`. -/

structure CpuInfo where
  usage : ℚ
  cores : ℕ
  perCore : Option (List ℚ)
  deriving DecidableEq

structure MemoryInfo where
  total : ℚ
  used : ℚ
  free : ℚ
  totalSwap : ℚ
  usedSwap : ℚ
  freeSwap : ℚ
  deriving DecidableEq

structure DiskInfo where
  read : ℚ
  write : ℚ
  deriving DecidableEq

structure NetworkInfo where
  rx : ℚ
  tx : ℚ
  deriving DecidableEq

structure SystemInfo where
  cpu : Option CpuInfo
  memory : Option MemoryInfo
  disk : Option DiskInfo
  network : Option NetworkInfo
  deriving DecidableEq

/-- `info?.network?.rx ?? 0` for a possibly-`null` system info. -/
def rxOf (info : Option SystemInfo) : ℚ :=
  match info.bind SystemInfo.network with
  | some n => n.rx
  | none => 0

/-- `info?.network?.tx ?? 0`. -/
def txOf (info : Option SystemInfo) : ℚ :=
  match info.bind SystemInfo.network with
  | some n => n.tx
  | none => 0

/-- `info?.cpu?.usage ?? 0`. -/
def cpuOf (info : Option SystemInfo) : ℚ :=
  match info.bind SystemInfo.cpu with
  | some c => c.usage
  | none => 0

/-- `info?.cpu?.perCore ?? []`. -/
def perCoreOf (info : Option SystemInfo) : List ℚ :=
  match info.bind SystemInfo.cpu with
  | some c => c.perCore.getD []
  | none => []

/-- `info?.disk?.read ?? 0`. -/
def diskReadOf (info : Option SystemInfo) : ℚ :=
  match info.bind SystemInfo.disk with
  | some d => d.read
  | none => 0

/-- `info?.disk?.write ?? 0`. -/
def diskWriteOf (info : Option SystemInfo) : ℚ :=
  match info.bind SystemInfo.disk with
  | some d => d.write
  | none => 0

/-- The memory percentage of a history point (App.tsx line 510):
`info?.memory ? (info.memory.used / info.memory.total) * 100 : 0`.
When the memory object is present the division is **not** guarded, so a zero
total yields a non-finite value (`none`). -/
def memPct (m : Option MemoryInfo) : JSVal :=
  match m with
  | some mi => (jsDiv mi.used mi.total).map (· * 100)
  | none => some 0

/-- The swap percentage of a history point (App.tsx line 511):
`info?.memory && info.memory.totalSwap > 0 ?
  (info.memory.usedSwap / info.memory.totalSwap) * 100 : 0`. -/
def swapPct (m : Option MemoryInfo) : JSVal :=
  match m with
  | some mi =>
      if 0 < mi.totalSwap then (jsDiv mi.usedSwap mi.totalSwap).map (· * 100)
      else some 0
  | none => some 0

/-- One derived history point (`HistoricalData`, App.tsx lines 397–407).
`perCore` is an optional field in the source interface (the pre-seeded
placeholder points omit it); `memory`/`swap` are the two fields produced by
divisions that can be non-finite. -/
structure HistoricalData where
  timestamp : ℚ
  cpu : ℚ
  perCore : Option (List ℚ)
  memory : JSVal
  swap : JSVal
  diskRead : ℚ
  diskWrite : ℚ
  networkRx : ℚ
  networkTx : ℚ
  deriving DecidableEq

/-- The history point constructed each cycle (App.tsx lines 506–516). -/
def newDataPoint (info : Option SystemInfo) (t rxRate txRate : ℚ) :
    HistoricalData where
  timestamp := t
  cpu := cpuOf info
  perCore := some (perCoreOf info)
  memory := memPct (info.bind SystemInfo.memory)
  swap := swapPct (info.bind SystemInfo.memory)
  diskRead := diskReadOf info
  diskWrite := diskWriteOf info
  networkRx := max 0 rxRate
  networkTx := max 0 txRate

/-! ## The history ring buffer (`setHistory`, App.tsx lines 518–522)

`setHistory(prev => { const updated = [...prev, newDataPoint];
return updated.slice(-900); })`. -/

/-- `Array.prototype.slice(-n)`: the final `min(n, length)` elements. -/
def sliceLast (n : ℕ) (l : List α) : List α :=
  l.drop (l.length - n)

/-- One history update: append the new point, keep the last 900. -/
def setHistoryStep (prev : List HistoricalData) (p : HistoricalData) :
    List HistoricalData :=
  sliceLast 900 (prev ++ [p])

/-- Running a sequence of appends through the updater. -/
def appendAll (start : List HistoricalData) (pts : List HistoricalData) :
    List HistoricalData :=
  pts.foldl setHistoryStep start

/-! ## Processes and the process tree (`ProcessList.tsx`)

`Process` is the row interface of `ProcessList.tsx` (lines 3–18).  Strings
are modelled as `List Char`, JavaScript numbers as `ℚ` (`pid`/`ppid` are
process identifiers, hence `ℕ`). -/

structure Process where
  pid : ℕ
  ppid : ℕ
  name : List Char
  cpu : ℚ
  memoryBytes : ℚ
  memoryPercentage : ℚ
  user : List Char
  runTime : ℚ
  cpuTime : ℚ
  status : List Char
  command : List Char
  diskRead : ℚ
  diskWrite : ℚ
  isThread : Bool
  deriving DecidableEq

/-- `processMap.has(k)`: the first pass of `buildProcessTree` registers every
process under its `pid`, so the lookup succeeds iff some process of the input
list has pid `k`. -/
def hasPid (procs : List Process) (k : ℕ) : Bool :=
  procs.any (fun q => q.pid == k)

/-- The root test of `buildProcessTree` (ProcessList.tsx line 168):
`proc.ppid === 0 || !processMap.has(proc.ppid)`. -/
def isRootProc (procs : List Process) (p : Process) : Bool :=
  p.ppid == 0 || !(hasPid procs p.ppid)

/-- The attachment test of the second pass (ProcessList.tsx line 160):
`proc.ppid !== 0 && processMap.has(proc.ppid)`. -/
def isChildProc (procs : List Process) (p : Process) : Bool :=
  !(p.ppid == 0) && hasPid procs p.ppid

/-- The forest produced by `buildProcessTree` (ProcessList.tsx lines
146–171): the list of roots plus the `childrenMap`, represented as the
function sending a pid to its (in input order) list of attached children. -/
structure ProcessForest where
  roots : List Process
  childrenOf : ℕ → List Process

/-- `buildProcessTree` (ProcessList.tsx lines 146–171).  A process is pushed
onto `childrenMap[ppid]` exactly when `ppid !== 0 && processMap.has(ppid)`,
in input order; the roots are the processes failing that test. -/
def buildProcessTree (procs : List Process) : ProcessForest where
  roots := procs.filter (fun p => isRootProc procs p)
  childrenOf := fun k =>
    procs.filter (fun p => isChildProc procs p && p.ppid == k)

/-- Reachability from the roots of the built forest by repeatedly following
`childrenMap` entries — exactly the rows the tree view can ever render
(`renderProcessTree` recursion, ProcessList.tsx lines 173–240 and 596–598). -/
inductive Reach (procs : List Process) : Process → Prop
  | root (p : Process) :
      p ∈ (buildProcessTree procs).roots → Reach procs p
  | child (q p : Process) :
      Reach procs q → p ∈ (buildProcessTree procs).childrenOf q.pid →
      Reach procs p

/-- A process record with the given pid/ppid and defaulted display fields. -/
def mkProc (pid ppid : ℕ) : Process where
  pid := pid
  ppid := ppid
  name := []
  cpu := 0
  memoryBytes := 0
  memoryPercentage := 0
  user := []
  runTime := 0
  cpuTime := 0
  status := []
  command := []
  diskRead := 0
  diskWrite := 0
  isThread := false

/-- A self-referential process: `pid = 1`, `ppid = 1`. -/
def cycProcs : List Process := [mkProc 1 1]

/-- The processes of spec §8 Scenario 4:
`[{pid:1,ppid:0},{pid:2,ppid:1},{pid:3,ppid:99}]`. -/
def scen4Procs : List Process := [mkProc 1 0, mkProc 2 1, mkProc 3 99]

/-! ## The polling loop (`useEffect`, App.tsx lines 464–533)

The effect body runs `fetchData()` once and then
`setInterval(fetchData, 2000)`; the cleanup is `clearInterval(interval)`.
`fetchData` is `async`: each invocation immediately dispatches the
`Promise.all` of the provider calls (one in-flight sampling cycle) and its
continuation — rate derivation, `setPrev*`, `setHistory` — runs when the
promise resolves, whether or not the interval was cleared in between.
We model this with an explicit event-level small-step semantics over the
closure state: `tick` is a timer callback firing (it starts a fetch
unconditionally — the source has no in-flight guard), `resolve` is the
completion of one in-flight fetch carrying the fetched snapshot and the
`Date.now()` observed by the continuation, `reject` is the `catch` branch
(sets the error flag, touches no history), and `stop` is the cleanup
(`clearInterval`), after which no tick fires. -/

structure AppState where
  prevNetworkRx : ℚ
  prevNetworkTx : ℚ
  prevTimestamp : ℚ
  history : List HistoricalData
  inFlight : ℕ
  stopped : Bool
  deriving DecidableEq

inductive Ev where
  | tick
  | resolve (info : Option SystemInfo) (t : ℚ)
  | reject
  | stop

/-- The continuation of `fetchData` after the provider promise resolves
(App.tsx lines 479–522): derive the network rates against the previous
values, seed the previous values with the current readings, and append the
new history point. -/
def resolveStep (s : AppState) (info : Option SystemInfo) (t : ℚ) :
    AppState :=
  let timeDelta := (t - s.prevTimestamp) / 1000
  let networkRx := rxOf info
  let networkTx := txOf info
  let networkRxRate := rateRaw networkRx s.prevNetworkRx timeDelta
  let networkTxRate := rateRaw networkTx s.prevNetworkTx timeDelta
  { s with
    prevNetworkRx := networkRx
    prevNetworkTx := networkTx
    prevTimestamp := t
    history := setHistoryStep s.history
      (newDataPoint info t networkRxRate networkTxRate)
    inFlight := s.inFlight - 1 }

/-- One event of the polling loop.  A `tick` after `clearInterval` never
happens (the timer is cancelled), hence is a no-op on a stopped state; a
`resolve`/`reject` of an in-flight fetch runs its continuation regardless of
`stopped` — nothing in the source suppresses it. -/
def step (s : AppState) : Ev → AppState
  | Ev.tick => if s.stopped then s else { s with inFlight := s.inFlight + 1 }
  | Ev.resolve info t => if s.inFlight = 0 then s else resolveStep s info t
  | Ev.reject => if s.inFlight = 0 then s else { s with inFlight := s.inFlight - 1 }
  | Ev.stop => { s with stopped := true }

def runEvents (s : AppState) (evs : List Ev) : AppState :=
  evs.foldl step s

/-- One pre-seeded placeholder point (App.tsx lines 438–449); the literal
object has no `perCore` key, and memory/swap are plain zeros. -/
def zeroPoint (t : ℚ) : HistoricalData where
  timestamp := t
  cpu := 0
  perCore := none
  memory := some 0
  swap := some 0
  diskRead := 0
  diskWrite := 0
  networkRx := 0
  networkTx := 0

/-- The initial history:
`Array.from({length: 900}, (_, i) => ({timestamp: Date.now() - (900 - i) * 2000, …zeros}))`. -/
def seedHistory (t0 : ℚ) : List HistoricalData :=
  (List.range 900).map (fun i => zeroPoint (t0 - ((900 : ℚ) - i) * 2000))

/-- The renderer state right after mount, once the effect has made its
immediate `fetchData()` call: previous counters start at `0`, the previous
timestamp at the mount time `t0` (App.tsx lines 419–421), the pre-seeded
history, and one fetch in flight. -/
def initState (t0 : ℚ) : AppState where
  prevNetworkRx := 0
  prevNetworkTx := 0
  prevTimestamp := t0
  history := seedHistory t0
  inFlight := 1
  stopped := false

/-- A state with one unresolved sampling cycle (for concrete scenarios). -/
def busyState : AppState where
  prevNetworkRx := 0
  prevNetworkTx := 0
  prevTimestamp := 0
  history := []
  inFlight := 1
  stopped := false

/-- A stopped state with one fetch still in flight. -/
def stoppedBusy : AppState where
  prevNetworkRx := 0
  prevNetworkTx := 0
  prevTimestamp := 0
  history := []
  inFlight := 1
  stopped := true

/-- An idle unstopped state with empty history (for concrete traces). -/
def idleStart : AppState where
  prevNetworkRx := 0
  prevNetworkTx := 0
  prevTimestamp := 0
  history := []
  inFlight := 0
  stopped := false

/-- A snapshot carrying only network counters `rx = 5000`, `tx = 0`. -/
def netOnlyInfo : SystemInfo where
  cpu := none
  memory := none
  disk := none
  network := some { rx := 5000, tx := 0 }

/-- A memory reading with `total = 0` but nonzero `used` (e.g. the main
process falls back to `{total: 0, used: 0, free: 0}` when the native module
fails to load; a nonzero `used` makes the quotient `Infinity` rather than
`NaN` — both non-finite). -/
def zeroTotalMem : MemoryInfo where
  total := 0
  used := 5
  free := 0
  totalSwap := 0
  usedSwap := 0
  freeSwap := 0

/-- A snapshot whose memory object is present with a zero total. -/
def zeroTotalInfo : SystemInfo where
  cpu := none
  memory := some zeroTotalMem
  disk := none
  network := none

/-! ## The filtered, sorted process view (`sortedProcesses`,
ProcessList.tsx lines 242–266)

`[...processes].filter(...).sort(...)` with a case-insensitive substring
filter on `name` and a comparator that is lexicographic (on lowercased
strings) for `name`/`user`/`status`/`command` and an arithmetic difference
otherwise.  ECMAScript's `Array.prototype.sort` is specified to be stable;
we model it by a stable insertion sort.  `localeCompare` is modelled as
code-point lexicographic comparison and `toLowerCase` by `Char.toLower`. -/

inductive SortKey where
  | cpu
  | memoryBytes
  | memoryPercentage
  | pid
  | name
  | user
  | runTime
  | cpuTime
  | status
  | command
  | diskRead
  | diskWrite
  deriving DecidableEq

/-- `s.toLowerCase()`. -/
def lowerChars (s : List Char) : List Char :=
  s.map Char.toLower

/-- Code-point lexicographic comparison of two strings (our model of
`localeCompare`). -/
def lexCmp : List Char → List Char → Ordering
  | [], [] => Ordering.eq
  | [], _ :: _ => Ordering.lt
  | _ :: _, [] => Ordering.gt
  | a :: as, b :: bs =>
      if a.toNat < b.toNat then Ordering.lt
      else if b.toNat < a.toNat then Ordering.gt
      else lexCmp as bs

/-- The JavaScript number returned by `localeCompare`: negative / zero /
positive, normalised to `-1 / 0 / 1`. -/
def ordQ : Ordering → ℚ
  | Ordering.lt => -1
  | Ordering.eq => 0
  | Ordering.gt => 1

/-- `a[sortBy]` for the four string-compared keys. -/
def strFieldOf : SortKey → Process → List Char
  | SortKey.name, p => p.name
  | SortKey.user, p => p.user
  | SortKey.status, p => p.status
  | SortKey.command, p => p.command
  | _, _ => []

/-- `a[sortBy]` for the numeric keys (`pid` is a JavaScript number; we cast
the `ℕ` model to `ℚ`). -/
def numFieldOf : SortKey → Process → ℚ
  | SortKey.cpu, p => p.cpu
  | SortKey.memoryBytes, p => p.memoryBytes
  | SortKey.memoryPercentage, p => p.memoryPercentage
  | SortKey.pid, p => (p.pid : ℚ)
  | SortKey.runTime, p => p.runTime
  | SortKey.cpuTime, p => p.cpuTime
  | SortKey.diskRead, p => p.diskRead
  | SortKey.diskWrite, p => p.diskWrite
  | _, _ => 0

/-- The branch test of the comparator (ProcessList.tsx line 252):
`sortBy === "name" || sortBy === "user" || sortBy === "status" || sortBy === "command"`. -/
def isStringKey : SortKey → Bool
  | SortKey.name => true
  | SortKey.user => true
  | SortKey.status => true
  | SortKey.command => true
  | _ => false

/-- The comparator passed to `.sort()` (ProcessList.tsx lines 247–266):
case-insensitive `localeCompare` for string keys (arguments swapped when
descending), arithmetic difference for numeric keys. -/
def cmpProc (k : SortKey) (desc : Bool) (a b : Process) : ℚ :=
  if isStringKey k then
    let aStr := lowerChars (strFieldOf k a)
    let bStr := lowerChars (strFieldOf k b)
    if desc then ordQ (lexCmp bStr aStr) else ordQ (lexCmp aStr bStr)
  else
    let aVal := numFieldOf k a
    let bVal := numFieldOf k b
    if desc then bVal - aVal else aVal - bVal

/-- The derived sort key of a row: the lowercased string for string keys,
the numeric value otherwise.  Two rows tie under `cmpProc` exactly when
their derived keys agree. -/
def keyOf (k : SortKey) (p : Process) : ℚ ⊕ List Char :=
  if isStringKey k then Sum.inr (lowerChars (strFieldOf k p))
  else Sum.inl (numFieldOf k p)

/-- `a` sorts strictly before `b`: the comparator returned a negative
number. -/
def ltProc (k : SortKey) (desc : Bool) (a b : Process) : Bool :=
  decide (cmpProc k desc a b < 0)

/-- Insert `x` into the already-sorted `s`, after every element strictly
smaller and before everything else — the placement a stable sort gives the
earliest remaining element. -/
def sortedInsert (lt : α → α → Bool) (x : α) : List α → List α
  | [] => [x]
  | y :: ys => if lt y x then y :: sortedInsert lt x ys else x :: y :: ys

/-- Stable comparison sort (insertion sort): the extensional behaviour
ECMAScript specifies for `Array.prototype.sort` with a consistent
comparator. -/
def stableSort (lt : α → α → Bool) (l : List α) : List α :=
  l.foldr (sortedInsert lt) []

/-- Does `needle` occur at the head of `hay`? -/
def leadMatch : List Char → List Char → Bool
  | [], _ => true
  | _ :: _, [] => false
  | a :: as, b :: bs => a == b && leadMatch as bs

/-- `hay.includes(needle)`: substring occurrence at any position. -/
def hasSub (needle : List Char) : List Char → Bool
  | [] => leadMatch needle []
  | c :: rest => leadMatch needle (c :: rest) || hasSub needle rest

/-- The free-text filter (ProcessList.tsx lines 243–246):
`!searchQuery || process.name.toLowerCase().includes(searchQuery.toLowerCase())`. -/
def matchesQuery (query : List Char) (p : Process) : Bool :=
  query.isEmpty || hasSub (lowerChars query) (lowerChars p.name)

/-- Sort a process list by one key/direction with the source comparator. -/
def sortProcs (k : SortKey) (desc : Bool) (l : List Process) : List Process :=
  stableSort (ltProc k desc) l

/-- The `sortedProcesses` pipeline (ProcessList.tsx lines 242–266): copy,
filter by the query, then stable-sort by the active key. -/
def sortedProcesses (procs : List Process) (query : List Char)
    (k : SortKey) (desc : Bool) : List Process :=
  sortProcs k desc (procs.filter (matchesQuery query))

/-- Tree mode (ProcessList.tsx lines 596–598): the forest is built from the
already-filtered-and-sorted flat list. -/
def displayedForest (procs : List Process) (query : List Char)
    (k : SortKey) (desc : Bool) : ProcessForest :=
  buildProcessTree (sortedProcesses procs query k desc)

/-- Two processes named (case-variedly) like Chrome, one `systemd` parent —
spec §8 Scenario 5 flavour, with a parent/child pair for the tree-mode
orphan-promotion scenario. -/
def sysdProc : Process :=
  { mkProc 1 0 with name := ['s','y','s','t','e','m','d'] }

def chromeProc : Process :=
  { mkProc 2 1 with name := ['C','h','r','o','m','e'] }

def chromePair : List Process := [sysdProc, chromeProc]

/-- The query text `chrome`. -/
def chromeQuery : List Char := ['c','h','r','o','m','e']

/-! ## A store model for the view pipeline (claim C10)

To state that `sortedProcesses` never mutates its input array we model
JavaScript arrays as references into a store.  `[...processes]` allocates a
fresh array with the same contents, `.filter` allocates a fresh array, and
`.sort()` sorts **in place**, mutating its receiver (and returning it). -/

abbrev Store := List (List Process)

/-- Read the contents of array reference `r`. -/
def readArr (st : Store) (r : ℕ) : List Process :=
  st.getD r []

/-- Allocate a fresh array holding `xs`; returns the new store and the new
reference. -/
def allocArr (st : Store) (xs : List Process) : Store × ℕ :=
  (st ++ [xs], st.length)

/-- Overwrite the contents of array reference `r` (what `.sort()` does to
its receiver). -/
def writeArr (st : Store) (r : ℕ) (xs : List Process) : Store :=
  st.set r xs

/-- The `sortedProcesses` pipeline at the store level:
`[...processes]` (spread-copy, fresh allocation), `.filter` (fresh
allocation), `.sort` (in-place on the filtered array).  Returns the final
store and the reference the view renders from. -/
def sortedProcessesOp (st : Store) (r : ℕ) (query : List Char)
    (k : SortKey) (desc : Bool) : Store × ℕ :=
  let copied := allocArr st (readArr st r)
  let filtered := allocArr copied.1
    ((readArr copied.1 copied.2).filter (matchesQuery query))
  let sortedStore := writeArr filtered.1 filtered.2
    (sortProcs k desc (readArr filtered.1 filtered.2))
  (sortedStore, filtered.2)

/-! ### Ring-buffer lemmas -/

theorem sliceLast_length (n : ℕ) (l : List α) :
    (sliceLast n l).length = min l.length n := by
  simp only [sliceLast, List.length_drop]
  omega

theorem sliceLast_append_left (n : ℕ) (l m : List α) :
    sliceLast n (sliceLast n l ++ m) = sliceLast n (l ++ m) := by
  have h1 : (sliceLast n l) ++ m = (l ++ m).drop (l.length - n) := by
    simp only [sliceLast]
    exact (List.drop_append_of_le_length (by omega)).symm
  simp only [sliceLast] at h1 ⊢
  rw [h1, List.length_drop, List.drop_drop, List.length_append]
  congr 1
  omega

theorem getLast?_drop_of_lt {l : List α} {m : ℕ} (h : m < l.length) :
    (l.drop m).getLast? = l.getLast? := by
  conv_rhs => rw [← List.take_append_drop m l]
  rw [List.getLast?_append]
  have hsome : (l.drop m).getLast?.isSome := by
    rw [List.getLast?_isSome, ← List.length_pos, List.length_drop]
    omega
  exact (Option.or_of_isSome hsome).symm

theorem getLast?_sliceLast (n : ℕ) (hn : 0 < n) (l : List α) :
    (sliceLast n l).getLast? = l.getLast? := by
  rcases Nat.eq_zero_or_pos l.length with h0 | hpos
  · rw [List.length_eq_zero] at h0
    subst h0
    simp [sliceLast]
  · exact getLast?_drop_of_lt (by omega)

theorem appendAll_cons (b : List HistoricalData) (p : HistoricalData)
    (ps : List HistoricalData) :
    appendAll b (p :: ps) = appendAll (setHistoryStep b p) ps := by
  simp only [appendAll, List.foldl_cons]

theorem appendAll_sliceLast (start pts : List HistoricalData) :
    appendAll (sliceLast 900 start) pts = sliceLast 900 (start ++ pts) := by
  induction pts generalizing start with
  | nil => simp only [appendAll, List.foldl_nil, List.append_nil]
  | cons p ps ih =>
      rw [appendAll_cons]
      have h1 : setHistoryStep (sliceLast 900 start) p
          = sliceLast 900 (start ++ [p]) := by
        simp only [setHistoryStep]
        exact sliceLast_append_left 900 start [p]
      rw [h1]
      have h2 := ih (start ++ [p])
      rw [h2, List.append_assoc]
      rfl

/-- Appending to an initially empty buffer yields the trailing window. -/
theorem appendAll_nil_eq (pts : List HistoricalData) :
    appendAll [] pts = sliceLast 900 pts := by
  have h : sliceLast 900 ([] : List HistoricalData) = [] := rfl
  have := appendAll_sliceLast [] pts
  rw [h] at this
  simpa using this


/-! ### Counting lemmas for the forest -/

theorem sum_map_add_nat (L : List α) (f g : α → ℕ) :
    (L.map (fun x => f x + g x)).sum = (L.map f).sum + (L.map g).sum := by
  induction L with
  | nil => rfl
  | cons a as ih =>
      simp only [List.map_cons, List.sum_cons, ih]
      omega

theorem countP_eq_sum_map (pred : α → Bool) (L : List α) :
    L.countP pred = (L.map (fun x => if pred x = true then 1 else 0)).sum := by
  induction L with
  | nil => rfl
  | cons a as ih =>
      rw [List.countP_cons, List.map_cons, List.sum_cons, ih]
      by_cases h : pred a = true
      · simp [h]
        omega
      · simp [h]

theorem countP_pid_eq_count (procs : List Process) (k : ℕ) :
    procs.countP (fun r => r.pid == k) = (procs.map Process.pid).count k := by
  induction procs with
  | nil => rfl
  | cons p ps ih =>
      rw [List.countP_cons, List.map_cons, List.count_cons, ih]

/-- Double counting: summing, over the processes `q` of `Q`, the number of
elements of `L` attached to `q.pid`, equals summing over `L` the number of
matching parents in `Q`. -/
theorem key_count (A : Process → Bool) (Q L : List Process) :
    (Q.map (fun q => L.countP (fun p => A p && p.ppid == q.pid))).sum
      = (L.map (fun p =>
          if A p = true then Q.countP (fun r => r.pid == p.ppid) else 0)).sum := by
  induction Q with
  | nil =>
      simp [List.countP_nil]
  | cons q Q ih =>
      simp only [List.map_cons, List.sum_cons, ih]
      have hpoint : ∀ p : Process,
          (if A p = true then (q :: Q).countP (fun r => r.pid == p.ppid) else 0)
            = (if A p = true then Q.countP (fun r => r.pid == p.ppid) else 0)
              + (if (A p && p.ppid == q.pid) = true then 1 else 0) := by
        intro p
        rw [List.countP_cons]
        by_cases hA : A p = true
        · simp only [hA, if_true, Bool.true_and]
          by_cases he : p.ppid = q.pid
          · simp [he]
          · have h1 : (q.pid == p.ppid) = false := by
              simp [Ne.symm he]
            have h2 : (p.ppid == q.pid) = false := by
              simp [he]
            simp [h1, h2]
        · simp only [hA, if_false, Bool.false_and]
          simp
      have hmap : L.map (fun p =>
            if A p = true then (q :: Q).countP (fun r => r.pid == p.ppid) else 0)
          = L.map (fun p =>
              (if A p = true then Q.countP (fun r => r.pid == p.ppid) else 0)
                + (if (A p && p.ppid == q.pid) = true then 1 else 0)) :=
        List.map_congr_left (fun p _ => hpoint p)
      rw [hmap, sum_map_add_nat, ← countP_eq_sum_map]
      omega

theorem isRoot_eq_not_isChild (procs : List Process) (p : Process) :
    isRootProc procs p = !isChildProc procs p := by
  unfold isRootProc isChildProc
  cases p.ppid == 0 <;> cases hasPid procs p.ppid <;> rfl

theorem isChildProc_iff (procs : List Process) (p : Process) :
    isChildProc procs p = true
      ↔ p.ppid ≠ 0 ∧ hasPid procs p.ppid = true := by
  unfold isChildProc
  cases h0 : p.ppid == 0 <;> cases hh : hasPid procs p.ppid <;>
    simp_all

/-- Under distinct pids, every attached child is counted exactly once across
all `childrenMap` entries of processes of the list. -/
theorem children_total_count (procs : List Process)
    (hnd : (procs.map Process.pid).Nodup) :
    (procs.map (fun q => ((buildProcessTree procs).childrenOf q.pid).length)).sum
      = procs.countP (fun p => isChildProc procs p) := by
  have hlen : ∀ q : Process,
      ((buildProcessTree procs).childrenOf q.pid).length
        = procs.countP (fun p => isChildProc procs p && p.ppid == q.pid) := by
    intro q
    simp only [buildProcessTree]
    exact (List.countP_eq_length_filter ..).symm
  have hmap1 : procs.map (fun q => ((buildProcessTree procs).childrenOf q.pid).length)
      = procs.map (fun q => procs.countP (fun p => isChildProc procs p && p.ppid == q.pid)) :=
    List.map_congr_left (fun q _ => hlen q)
  rw [hmap1, key_count]
  have hone : ∀ p ∈ procs, (if isChildProc procs p = true
        then procs.countP (fun r => r.pid == p.ppid) else 0)
      = (if isChildProc procs p = true then 1 else 0) := by
    intro p _
    by_cases hc : isChildProc procs p = true
    · simp only [hc, if_true]
      have hhas : hasPid procs p.ppid = true :=
        ((isChildProc_iff procs p).mp hc).2
      have hex : ∃ q ∈ procs, (fun r => r.pid == p.ppid) q = true := by
        unfold hasPid at hhas
        exact List.any_eq_true.mp hhas
      have hpos : 0 < procs.countP (fun r => r.pid == p.ppid) :=
        List.countP_pos_iff.mpr hex
      have hle : procs.countP (fun r => r.pid == p.ppid) ≤ 1 := by
        rw [countP_pid_eq_count]
        exact List.nodup_iff_count_le_one.mp hnd p.ppid
      omega
    · simp [hc]
  have hmap2 : procs.map (fun p =>
        if isChildProc procs p = true
        then procs.countP (fun r => r.pid == p.ppid) else 0)
      = procs.map (fun p => if isChildProc procs p = true then 1 else 0) :=
    List.map_congr_left hone
  rw [hmap2, ← countP_eq_sum_map]

/-- Every process of the input becomes a root or an attached child, and these
two placements partition the input list. -/
theorem forest_partition (procs : List Process)
    (hnd : (procs.map Process.pid).Nodup) :
    (buildProcessTree procs).roots.length
      + (procs.map (fun q => ((buildProcessTree procs).childrenOf q.pid).length)).sum
      = procs.length := by
  rw [children_total_count procs hnd]
  have hroots : (buildProcessTree procs).roots.length
      = procs.countP (fun p => isRootProc procs p) := by
    simp only [buildProcessTree]
    exact (List.countP_eq_length_filter ..).symm
  rw [hroots]
  have hsplit := List.length_eq_countP_add_countP
    (fun p => isChildProc procs p) (l := procs)
  have hcongr : procs.countP (fun p => isRootProc procs p)
      = procs.countP (fun p => decide ¬(isChildProc procs p = true)) := by
    apply List.countP_congr
    intro p _
    rw [isRoot_eq_not_isChild]
    cases isChildProc procs p <;> rfl
  omega

/-- Acyclicity of the parent links (existence of a rank strictly decreasing
from child to in-list parent) makes every process reachable from the roots. -/
theorem reach_all (procs : List Process) (rank : ℕ → ℕ)
    (hr : ∀ p ∈ procs, p.ppid ≠ 0 → hasPid procs p.ppid = true →
      rank p.ppid < rank p.pid) :
    ∀ p ∈ procs, Reach procs p := by
  have key : ∀ n, ∀ p ∈ procs, rank p.pid < n → Reach procs p := by
    intro n
    induction n with
    | zero => intro p _ h; omega
    | succ m ih =>
        intro p hp hlt
        by_cases hroot : isRootProc procs p = true
        · exact Reach.root p (List.mem_filter.mpr ⟨hp, hroot⟩)
        · have hchild : isChildProc procs p = true := by
            cases hcc : isChildProc procs p
            · exfalso
              apply hroot
              rw [isRoot_eq_not_isChild, hcc]
              rfl
            · rfl
          have hne : p.ppid ≠ 0 := ((isChildProc_iff procs p).mp hchild).1
          have hhas : hasPid procs p.ppid = true :=
            ((isChildProc_iff procs p).mp hchild).2
          obtain ⟨q, hq, hqb⟩ := List.any_eq_true.mp hhas
          have hqpid : q.pid = p.ppid := by simpa using hqb
          have hrq : rank q.pid < m := by
            have hlt2 := hr p hp hne hhas
            rw [hqpid]
            omega
          have hReachq : Reach procs q := ih q hq hrq
          refine Reach.child q p hReachq ?_
          simp only [buildProcessTree]
          refine List.mem_filter.mpr ⟨hp, ?_⟩
          rw [Bool.and_eq_true]
          exact ⟨hchild, by simp [hqpid]⟩
  intro p hp
  exact key (rank p.pid + 1) p hp (by omega)

/-! ## Claim C3 -/

/-- C3 (amended): for inputs with pairwise-distinct pids (the data model's
stated invariant) whose ppid links are acyclic, every process is placed in
the forest exactly once — the roots plus the attached children exhaust the
input — and every process is reachable from the roots, so the tree view
renders exactly `len(input)` nodes.  (The original claim also covered cyclic
inputs; see the counterexample `buildProcessTree_cycle_cex`.) -/
theorem buildProcessTree_complete (procs : List Process)
    (hnd : (procs.map Process.pid).Nodup)
    (hacyc : ∃ rank : ℕ → ℕ, ∀ p ∈ procs, p.ppid ≠ 0 →
      hasPid procs p.ppid = true → rank p.ppid < rank p.pid) :
    ((buildProcessTree procs).roots.length
        + (procs.map
            (fun q => ((buildProcessTree procs).childrenOf q.pid).length)).sum
        = procs.length)
    ∧ ∀ p ∈ procs, Reach procs p := by
  obtain ⟨rank, hr⟩ := hacyc
  exact ⟨forest_partition procs hnd, reach_all procs rank hr⟩

/-- C3 counterexample: on the cyclic input `[{pid:1, ppid:1}]` the builder
attaches the process as its own child, the root list is empty, and the
process is unreachable from the roots — the displayed forest has 0 nodes
while the input has 1, refuting the claim for cyclic inputs. -/
theorem buildProcessTree_cycle_cex :
    (buildProcessTree cycProcs).roots = []
      ∧ cycProcs.length = 1
      ∧ (buildProcessTree cycProcs).childrenOf 1 = [mkProc 1 1]
      ∧ ¬ Reach cycProcs (mkProc 1 1) := by
  have hroots : (buildProcessTree cycProcs).roots = [] := by decide
  have hgen : ∀ x, Reach cycProcs x → False := by
    intro x h
    induction h with
    | root p hmem =>
        rw [hroots] at hmem
        exact (List.not_mem_nil p) hmem
    | child q p hq hmem ih => exact ih
  exact ⟨hroots, rfl, by decide, hgen (mkProc 1 1)⟩

/-- Witness for `buildProcessTree_complete` on Scenario 4. -/
theorem buildProcessTree_complete_witness :
    ((buildProcessTree scen4Procs).roots.length
        + (scen4Procs.map
            (fun q => ((buildProcessTree scen4Procs).childrenOf q.pid).length)).sum
        = scen4Procs.length)
      ∧ Reach scen4Procs (mkProc 2 1) :=
  ⟨(buildProcessTree_complete scen4Procs (by decide)
      ⟨fun k => k, by decide⟩).1,
   (buildProcessTree_complete scen4Procs (by decide)
      ⟨fun k => k, by decide⟩).2 (mkProc 2 1) (by decide)⟩

/-! ## Claim C1 -/

/-- C1: for every `current`, `previous` and `deltaSeconds`, the derived
per-second rate equals `max(0, (current - previous) / deltaSeconds)` when
`deltaSeconds > 0` and equals `0` when `deltaSeconds ≤ 0`; consequently the
result is `≥ 0` for all inputs, including a counter reset
(`current < previous`). -/
theorem computeRate_spec (current previous timeDelta : ℚ) :
    computeRate current previous timeDelta
      = (if 0 < timeDelta then max 0 ((current - previous) / timeDelta) else 0)
    ∧ 0 ≤ computeRate current previous timeDelta := by
  constructor
  · unfold computeRate rateRaw
    by_cases h : 0 < timeDelta <;> simp [h]
  · exact le_max_left 0 _

/-! ## Claim C2 -/

/-- C2: after any sequence of `k` appends to an initially empty history
buffer (capacity 900), the buffer is exactly the trailing
`min(k, 900)`-element suffix of the appended sequence — the most recently
appended points in oldest-first order — its length is `min(k, 900)` and its
last element is the most recently appended point. -/
theorem history_ring_buffer_invariant (pts : List HistoricalData) :
    appendAll [] pts = pts.drop (pts.length - 900)
    ∧ (appendAll [] pts).length = min pts.length 900
    ∧ (appendAll [] pts).getLast? = pts.getLast? := by
  have h := appendAll_nil_eq pts
  refine ⟨h, ?_, ?_⟩
  · rw [h]
    exact sliceLast_length 900 pts
  · rw [h]
    exact getLast?_sliceLast 900 (by omega) pts

/-! ## Scheduler lemmas -/

/-- The updater always leaves the just-appended point observable at the
tail. -/
theorem setHistoryStep_getLast (h : List HistoricalData)
    (p : HistoricalData) :
    (setHistoryStep h p).getLast? = some p := by
  unfold setHistoryStep
  rw [getLast?_sliceLast 900 (by omega), List.getLast?_append]
  rfl

/-- An unresolved fetch resolves by running the continuation. -/
theorem step_resolve (s : AppState) (info : Option SystemInfo) (t : ℚ)
    (h : s.inFlight ≠ 0) :
    step s (Ev.resolve info t) = resolveStep s info t := by
  simp [step, h]

theorem resolveStep_history (s : AppState) (info : Option SystemInfo)
    (t : ℚ) :
    (resolveStep s info t).history
      = setHistoryStep s.history (newDataPoint info t
          (rateRaw (rxOf info) s.prevNetworkRx ((t - s.prevTimestamp) / 1000))
          (rateRaw (txOf info) s.prevNetworkTx ((t - s.prevTimestamp) / 1000))) := by
  simp only [resolveStep]

theorem resolveStep_prevRx (s : AppState) (info : Option SystemInfo)
    (t : ℚ) : (resolveStep s info t).prevNetworkRx = rxOf info :=
  rfl

theorem resolveStep_prevTx (s : AppState) (info : Option SystemInfo)
    (t : ℚ) : (resolveStep s info t).prevNetworkTx = txOf info :=
  rfl

theorem resolveStep_prevTs (s : AppState) (info : Option SystemInfo)
    (t : ℚ) : (resolveStep s info t).prevTimestamp = t :=
  rfl

theorem initState_inFlight (t0 : ℚ) : (initState t0).inFlight = 1 := rfl

theorem initState_history (t0 : ℚ) :
    (initState t0).history = seedHistory t0 := by
  simp only [initState]

theorem initState_prevRx (t0 : ℚ) : (initState t0).prevNetworkRx = 0 := rfl

theorem initState_prevTx (t0 : ℚ) : (initState t0).prevNetworkTx = 0 := rfl

theorem initState_prevTs (t0 : ℚ) : (initState t0).prevTimestamp = t0 := rfl

theorem rxOf_netOnly : rxOf (some netOnlyInfo) = 5000 := rfl

theorem txOf_netOnly : txOf (some netOnlyInfo) = 0 := rfl

/-! ## Claim C4 -/

/-- C4 (amended): the timer callback has no in-flight guard — every tick on
a non-stopped state dispatches a new fetch, incrementing the number of
in-flight sampling cycles by one even when a previous cycle has not yet
resolved.  (The original claim — a tick with an unresolved cycle is a no-op
— is refuted by `tick_overlap_cex`.) -/
theorem tick_starts_fetch_unconditionally (s : AppState)
    (h : s.stopped = false) :
    (step s Ev.tick).inFlight = s.inFlight + 1 := by
  simp [step, h]

/-- Witness: a tick on a state with one unresolved cycle goes to two. -/
theorem tick_starts_fetch_unconditionally_witness :
    busyState.stopped = false
      ∧ (step busyState Ev.tick).inFlight = busyState.inFlight + 1 :=
  ⟨rfl, tick_starts_fetch_unconditionally busyState rfl⟩

/-- C4 counterexample: with one sampling cycle still unresolved
(`inFlight = 1`, not stopped) a tick starts a second fetch — the state
changes and two cycles are in flight concurrently, refuting the
at-most-one-concurrent-cycle claim. -/
theorem tick_overlap_cex :
    busyState.inFlight = 1
      ∧ (step busyState Ev.tick).inFlight = 2
      ∧ step busyState Ev.tick ≠ busyState := by
  refine ⟨rfl, rfl, ?_⟩
  intro h
  have h2 := congrArg AppState.inFlight h
  simp [step, busyState] at h2

/-! ## Claim C5 -/

/-- C5 (amended): after `stop()` (`clearInterval`) no further tick starts a
fetch, but the effects of a fetch already in flight are **not** suppressed:
when it resolves, its continuation still appends its history point.  (The
original claim — no observable mutation after stop — is refuted by
`stop_suppression_cex`.) -/
theorem stop_cancels_timer_not_inflight (s : AppState)
    (info : Option SystemInfo) (t : ℚ) (h : s.stopped = true) :
    step s Ev.tick = s
    ∧ (s.inFlight ≠ 0 →
        (step s (Ev.resolve info t)).history
          = setHistoryStep s.history (newDataPoint info t
              (rateRaw (rxOf info) s.prevNetworkRx ((t - s.prevTimestamp) / 1000))
              (rateRaw (txOf info) s.prevNetworkTx ((t - s.prevTimestamp) / 1000)))) := by
  constructor
  · simp [step, h]
  · intro hf
    simp [step, hf, resolveStep]

/-- Witness: a stopped state with one in-flight fetch ignores ticks yet
still appends when the fetch resolves. -/
theorem stop_cancels_timer_not_inflight_witness :
    stoppedBusy.stopped = true ∧ stoppedBusy.inFlight ≠ 0
    ∧ step stoppedBusy Ev.tick = stoppedBusy
    ∧ (step stoppedBusy (Ev.resolve none 1000)).history
        = setHistoryStep stoppedBusy.history (newDataPoint none 1000
            (rateRaw (rxOf none) stoppedBusy.prevNetworkRx
              ((1000 - stoppedBusy.prevTimestamp) / 1000))
            (rateRaw (txOf none) stoppedBusy.prevNetworkTx
              ((1000 - stoppedBusy.prevTimestamp) / 1000))) :=
  ⟨rfl, by decide,
   (stop_cancels_timer_not_inflight stoppedBusy none 1000 rfl).1,
   (stop_cancels_timer_not_inflight stoppedBusy none 1000 rfl).2 (by decide)⟩

/-- C5 counterexample: start a fetch, stop, then let the in-flight fetch
resolve — the history, empty at the moment of stop, receives a point
afterwards: an observable mutation after `stop()`. -/
theorem stop_suppression_cex :
    (runEvents idleStart [Ev.tick, Ev.stop]).stopped = true
    ∧ (runEvents idleStart [Ev.tick, Ev.stop]).history.length = 0
    ∧ (runEvents idleStart
        [Ev.tick, Ev.stop, Ev.resolve none 1000]).history.length = 1 := by
  refine ⟨rfl, rfl, rfl⟩

/-! ## Claim C6 -/

/-- C6 (amended): the first sampling cycle does seed the previous-value
state with the current readings, but it does **not** record zero rates: the
initial previous values are `0` counters and the mount timestamp, so the
first recorded rx rate is `max(0, (rx - 0) / Δ)` for `Δ` the seconds since
mount — generally a large spurious value, not `0`.  (The original claim is
refuted by `first_cycle_rate_cex`.) -/
theorem first_cycle_behaviour (t0 t1 : ℚ) (info : Option SystemInfo) :
    (step (initState t0) (Ev.resolve info t1)).prevNetworkRx = rxOf info
    ∧ (step (initState t0) (Ev.resolve info t1)).prevNetworkTx = txOf info
    ∧ (step (initState t0) (Ev.resolve info t1)).prevTimestamp = t1
    ∧ (step (initState t0) (Ev.resolve info t1)).history
        = setHistoryStep (seedHistory t0) (newDataPoint info t1
            (rateRaw (rxOf info) 0 ((t1 - t0) / 1000))
            (rateRaw (txOf info) 0 ((t1 - t0) / 1000)))
    ∧ (0 < (t1 - t0) / 1000 →
        ((step (initState t0) (Ev.resolve info t1)).history.getLast?).map
            HistoricalData.networkRx
          = some (max 0 ((rxOf info - 0) / ((t1 - t0) / 1000)))) := by
  have hne : (initState t0).inFlight ≠ 0 := by
    rw [initState_inFlight]
    omega
  have hist : (step (initState t0) (Ev.resolve info t1)).history
      = setHistoryStep (seedHistory t0) (newDataPoint info t1
          (rateRaw (rxOf info) 0 ((t1 - t0) / 1000))
          (rateRaw (txOf info) 0 ((t1 - t0) / 1000))) := by
    rw [step_resolve _ _ _ hne, resolveStep_history, initState_history,
      initState_prevRx, initState_prevTx, initState_prevTs]
  refine ⟨?_, ?_, ?_, hist, ?_⟩
  · rw [step_resolve _ _ _ hne, resolveStep_prevRx]
  · rw [step_resolve _ _ _ hne, resolveStep_prevTx]
  · rw [step_resolve _ _ _ hne, resolveStep_prevTs]
  · intro hpos
    have h2 : (newDataPoint info t1
        (rateRaw (rxOf info) 0 ((t1 - t0) / 1000))
        (rateRaw (txOf info) 0 ((t1 - t0) / 1000))).networkRx
        = max 0 (rateRaw (rxOf info) 0 ((t1 - t0) / 1000)) := rfl
    rw [hist, setHistoryStep_getLast, Option.map_some', h2]
    simp only [rateRaw]
    rw [if_pos hpos]

/-- Witness: first resolve at `t1 = 2000` ms after mount with `rx = 5000`
cumulative bytes. -/
theorem first_cycle_behaviour_witness :
    (0 : ℚ) < ((2000 : ℚ) - 0) / 1000
    ∧ (step (initState 0) (Ev.resolve (some netOnlyInfo) 2000)).prevNetworkRx
        = rxOf (some netOnlyInfo)
    ∧ (step (initState 0) (Ev.resolve (some netOnlyInfo) 2000)).prevTimestamp
        = 2000
    ∧ ((step (initState 0)
          (Ev.resolve (some netOnlyInfo) 2000)).history.getLast?).map
        HistoricalData.networkRx
        = some (max 0 ((rxOf (some netOnlyInfo) - 0) / (((2000 : ℚ) - 0) / 1000))) :=
  ⟨by norm_num,
   (first_cycle_behaviour 0 2000 (some netOnlyInfo)).1,
   (first_cycle_behaviour 0 2000 (some netOnlyInfo)).2.2.1,
   (first_cycle_behaviour 0 2000 (some netOnlyInfo)).2.2.2.2 (by norm_num)⟩

/-- C6 counterexample: on the very first cycle (mount at `t = 0`, resolve at
`t = 2000` with cumulative `rx = 5000`) the recorded rx rate in the history
point is `2500`, not `0` — the initial `prev = 0 / mount timestamp` pair is
treated as a real previous reading. -/
theorem first_cycle_rate_cex :
    ((step (initState 0)
        (Ev.resolve (some netOnlyInfo) 2000)).history.getLast?).map
      HistoricalData.networkRx = some 2500
    ∧ (2500 : ℚ) ≠ 0 := by
  constructor
  · have hne : (initState (0 : ℚ)).inFlight ≠ 0 := by
      rw [initState_inFlight]
      omega
    rw [step_resolve _ _ _ hne, resolveStep_history, initState_history,
      initState_prevRx, initState_prevTx, initState_prevTs,
      setHistoryStep_getLast, rxOf_netOnly, txOf_netOnly]
    have h2 : (newDataPoint (some netOnlyInfo) 2000
        (rateRaw 5000 0 (((2000 : ℚ) - 0) / 1000))
        (rateRaw 0 0 (((2000 : ℚ) - 0) / 1000))).networkRx
        = max 0 (rateRaw 5000 0 (((2000 : ℚ) - 0) / 1000)) := rfl
    simp only [Option.map_some', h2]
    have h3 : rateRaw 5000 0 (((2000 : ℚ) - 0) / 1000) = 2500 := by
      rw [rateRaw, if_pos (by norm_num)]
      norm_num
    rw [h3]
    norm_num
  · norm_num

/-! ## Claim C7 -/

/-- C7 (amended): the swap percentage is guarded — it is `0` whenever
`totalSwap ≤ 0` (in particular when `totalSwap = 0`) and always finite —
but the memory percentage is guarded only by the presence of the `memory`
object: when `memory` is present with `total = 0` the recorded value is
non-finite (`NaN`/`Infinity`), not `0`.  Both are `0` when the object is
absent.  (The original claim — both guarded — is refuted by
`memPct_zero_total_cex`.) -/
theorem pct_characterization (mi : MemoryInfo) :
    swapPct (some mi)
      = some (if 0 < mi.totalSwap then mi.usedSwap / mi.totalSwap * 100 else 0)
    ∧ memPct (some mi)
      = (if mi.total = 0 then none else some (mi.used / mi.total * 100))
    ∧ memPct none = some 0
    ∧ swapPct none = some 0
    ∧ ∀ (info : Option SystemInfo) (t r1 r2 : ℚ),
        (newDataPoint info t r1 r2).memory
            = memPct (info.bind SystemInfo.memory)
        ∧ (newDataPoint info t r1 r2).swap
            = swapPct (info.bind SystemInfo.memory) := by
  refine ⟨?_, ?_, rfl, rfl, fun info t r1 r2 => ⟨rfl, rfl⟩⟩
  · by_cases h : 0 < mi.totalSwap
    · have hne : mi.totalSwap ≠ 0 := ne_of_gt h
      simp [swapPct, jsDiv, h, hne]
    · simp [swapPct, h]
  · by_cases h : mi.total = 0
    · simp [memPct, jsDiv, h]
    · simp [memPct, jsDiv, h]

/-- C7 counterexample: a present memory object with `total = 0` and
`used = 5` (the shape the main process produces when the native module is
missing can have `total = 0`) records a non-finite memory percentage
(`Infinity`), not `0`. -/
theorem memPct_zero_total_cex :
    memPct (some zeroTotalMem) = none
    ∧ memPct (some zeroTotalMem) ≠ some 0
    ∧ (newDataPoint (some zeroTotalInfo) 0 0 0).memory = none := by
  refine ⟨?_, ?_, ?_⟩
  · simp [memPct, zeroTotalMem, jsDiv]
  · simp [memPct, zeroTotalMem, jsDiv]
  · simp [newDataPoint, zeroTotalInfo, memPct, zeroTotalMem, jsDiv]

/-! ## Sort stability lemmas -/

theorem lexCmp_self (s : List Char) : lexCmp s s = Ordering.eq := by
  induction s with
  | nil => rfl
  | cons a as ih =>
      simp only [lexCmp, Nat.lt_irrefl, if_false]
      exact ih

theorem lexCmp_swap (s t : List Char) : lexCmp t s = (lexCmp s t).swap := by
  induction s generalizing t with
  | nil => cases t <;> rfl
  | cons a as ih =>
      cases t with
      | nil => rfl
      | cons b bs =>
          simp only [lexCmp]
          by_cases h1 : a.toNat < b.toNat
          · have h2 : ¬ b.toNat < a.toNat := by omega
            simp [h1, h2, Ordering.swap]
          · by_cases h2 : b.toNat < a.toNat
            · simp [h1, h2, Ordering.swap]
            · simp [h1, h2, ih bs]

theorem ordQ_swap (o : Ordering) : ordQ o.swap = - ordQ o := by
  cases o <;> simp [ordQ, Ordering.swap]

theorem ordQ_lexCmp_antisymm (s t : List Char) :
    ordQ (lexCmp s t) = - ordQ (lexCmp t s) := by
  rw [lexCmp_swap t s, ordQ_swap]

/-- The comparator is antisymmetric: swapping the arguments negates the
returned number, so no two calls on the same pair can report contradictory
orderings (and a tie is reported consistently both ways). -/
theorem cmpProc_antisymm (k : SortKey) (d : Bool) (a b : Process) :
    cmpProc k d a b = - cmpProc k d b a := by
  unfold cmpProc
  by_cases hk : isStringKey k = true <;> rcases d <;> simp [hk] <;>
    exact ordQ_lexCmp_antisymm _ _

/-- Rows with equal derived keys tie under the comparator. -/
theorem cmpProc_eq_zero_of_keyOf_eq (k : SortKey) (d : Bool) (a b : Process)
    (h : keyOf k a = keyOf k b) : cmpProc k d a b = 0 := by
  unfold keyOf at h
  unfold cmpProc
  by_cases hk : isStringKey k = true
  · simp only [hk, if_true] at h
    have hs : lowerChars (strFieldOf k a) = lowerChars (strFieldOf k b) :=
      Sum.inr.inj h
    rcases d <;> simp [hk, hs, lexCmp_self, ordQ]
  · simp only [hk, if_false] at h
    have hv : numFieldOf k a = numFieldOf k b := Sum.inl.inj h
    rcases d <;> simp [hk, hv]

/-- A tie never triggers a strict-before placement. -/
theorem ltProc_false_of_keyOf_eq (k : SortKey) (d : Bool) (a b : Process)
    (h : keyOf k a = keyOf k b) : ltProc k d a b = false := by
  unfold ltProc
  rw [cmpProc_eq_zero_of_keyOf_eq k d a b h]
  exact decide_eq_false (lt_irrefl 0)

/-- Inserting an element never disturbs, among the elements sharing one key
value, anything but prepending the new element when it has that key: the
placement of a stable sort. -/
theorem filter_sortedInsert {κ : Type} [DecidableEq κ]
    (lt : α → α → Bool) (key : α → κ)
    (hn : ∀ a b, key a = key b → lt a b = false)
    (x : α) (s : List α) (v : κ) :
    (sortedInsert lt x s).filter (fun z => decide (key z = v))
      = if key x = v then x :: s.filter (fun z => decide (key z = v))
        else s.filter (fun z => decide (key z = v)) := by
  induction s with
  | nil =>
      by_cases hx : key x = v <;> simp [sortedInsert, hx]
  | cons y ys ih =>
      by_cases hlt : lt y x = true
      · have hstep : sortedInsert lt x (y :: ys) = y :: sortedInsert lt x ys := by
          simp [sortedInsert, hlt]
        rw [hstep]
        by_cases hy : key y = v
        · by_cases hx : key x = v
          · exfalso
            have hyx : key y = key x := by rw [hy, hx]
            have hf := hn y x hyx
            rw [hf] at hlt
            exact Bool.false_ne_true hlt
          · simp [hy, hx, ih, List.filter_cons]
        · by_cases hx : key x = v <;> simp [hy, hx, ih, List.filter_cons]
      · have hlt2 : lt y x = false := by
          cases hcc : lt y x
          · rfl
          · exact absurd hcc hlt
        have hstep : sortedInsert lt x (y :: ys) = x :: y :: ys := by
          simp [sortedInsert, hlt2]
        rw [hstep]
        by_cases hx : key x = v <;> by_cases hy : key y = v <;>
          simp [hx, hy, List.filter_cons]

/-- Stability of the sort: for every key value, the subsequence of rows
carrying that value is returned in input order. -/
theorem filter_stableSort {κ : Type} [DecidableEq κ]
    (lt : α → α → Bool) (key : α → κ)
    (hn : ∀ a b, key a = key b → lt a b = false)
    (l : List α) (v : κ) :
    (stableSort lt l).filter (fun z => decide (key z = v))
      = l.filter (fun z => decide (key z = v)) := by
  induction l with
  | nil => rfl
  | cons x xs ih =>
      have hstep : stableSort lt (x :: xs) = sortedInsert lt x (stableSort lt xs) := by
        simp only [stableSort, List.foldr_cons]
      rw [hstep, filter_sortedInsert lt key hn, ih, List.filter_cons]
      by_cases hx : key x = v <;> simp [hx]

/-! ## Claim C8 -/

/-- C8: sorting by key `B` a list already sorted by another key `A`
preserves the relative order, from the `A`-sorted input, of any rows that
tie on `B` (for every value `v` of the derived `B`-key, the `v`-rows of the
output are the `v`-rows of the input in unchanged order); and the comparator
is total and consistent — swapping its arguments exactly negates the
returned number. -/
theorem sort_stability (l : List Process) (A : SortKey) (dA : Bool)
    (B : SortKey) (dB : Bool) (v : ℚ ⊕ List Char) :
    ((sortProcs B dB (sortProcs A dA l)).filter (fun p => decide (keyOf B p = v))
        = (sortProcs A dA l).filter (fun p => decide (keyOf B p = v)))
    ∧ ∀ a b : Process, cmpProc B dB a b = - cmpProc B dB b a := by
  refine ⟨?_, fun a b => cmpProc_antisymm B dB a b⟩
  exact filter_stableSort (ltProc B dB) (keyOf B)
    (fun a b h => ltProc_false_of_keyOf_eq B dB a b h)
    (sortProcs A dA l) v

/-! ## Claim C9 -/

/-- C9: in tree mode the filter (and sort) runs over the flat list before
the forest is built (`buildProcessTree(sortedProcesses)`), so a process that
survives the filter while no process of the filtered list carries its
`ppid` — in particular one whose parent was filtered out — appears as a root
of the displayed forest rather than being hidden with its parent. -/
theorem treeMode_orphan_promoted (procs : List Process) (query : List Char)
    (k : SortKey) (d : Bool) (p : Process)
    (hmem : p ∈ sortedProcesses procs query k d)
    (horph : hasPid (sortedProcesses procs query k d) p.ppid = false) :
    p ∈ (displayedForest procs query k d).roots := by
  unfold displayedForest buildProcessTree
  refine List.mem_filter.mpr ⟨hmem, ?_⟩
  unfold isRootProc
  rw [horph]
  simp

/-- Witness: filtering `[systemd(pid 1), Chrome(pid 2, ppid 1)]` by the text
`chrome` keeps only the child (case-insensitively); its parent is filtered
out, and it shows up as a root of the displayed tree. -/
theorem treeMode_orphan_promoted_witness :
    chromeProc ∈ sortedProcesses chromePair chromeQuery SortKey.name true
    ∧ hasPid (sortedProcesses chromePair chromeQuery SortKey.name true)
        chromeProc.ppid = false
    ∧ chromeProc ∈ (displayedForest chromePair chromeQuery SortKey.name true).roots :=
  ⟨by decide, by decide,
   treeMode_orphan_promoted chromePair chromeQuery SortKey.name true chromeProc
     (by decide) (by decide)⟩

/-! ## Claim C10 -/

/-- C10: the view pipeline never mutates its input array.  At the store
level, `[...processes]` allocates a copy, `.filter` allocates again, and the
in-place `.sort()` hits only the freshly allocated filtered array: the input
reference still holds its original contents (same length, order and
elements), the returned reference is distinct from the input one, and it
holds the filtered-and-sorted view of the original contents. -/
theorem view_pipeline_no_mutation (st : Store) (r : ℕ) (query : List Char)
    (k : SortKey) (d : Bool) (h : r < st.length) :
    readArr (sortedProcessesOp st r query k d).1 r = readArr st r
    ∧ readArr (sortedProcessesOp st r query k d).1
        (sortedProcessesOp st r query k d).2
        = sortProcs k d ((readArr st r).filter (matchesQuery query))
    ∧ (sortedProcessesOp st r query k d).2 ≠ r := by
  have hcopy : readArr (st ++ [readArr st r]) st.length = readArr st r := by
    unfold readArr
    rw [List.getD_eq_getElem?_getD, List.getD_eq_getElem?_getD,
      List.getElem?_append_right (le_refl _)]
    simp
  have heq : sortedProcessesOp st r query k d
      = ((st ++ [readArr st r]
            ++ [(readArr st r).filter (matchesQuery query)]).set (st.length + 1)
            (sortProcs k d ((readArr st r).filter (matchesQuery query))),
         st.length + 1) := by
    have hfil2 : readArr
        (st ++ [readArr st r, (readArr st r).filter (matchesQuery query)])
        (st.length + 1) = (readArr st r).filter (matchesQuery query) := by
      unfold readArr
      rw [List.getD_eq_getElem?_getD, List.getD_eq_getElem?_getD,
        List.getElem?_append_right (by omega)]
      simp
    simp only [sortedProcessesOp, allocArr, writeArr]
    rw [hcopy]
    simp [List.length_append]
    rw [hfil2]
  rw [heq]
  refine ⟨?_, ?_, by simp; omega⟩
  · unfold readArr
    rw [List.getD_eq_getElem?_getD, List.getD_eq_getElem?_getD,
      List.getElem?_set_ne (by omega),
      List.getElem?_append_left (by simp only [List.length_append]; omega),
      List.getElem?_append_left h]
  · unfold readArr
    rw [List.getD_eq_getElem?_getD,
      List.getElem?_set_self (by simp only [List.length_append, List.length_cons, List.length_nil]; omega)]
    simp

/-- Witness: a one-array store; the pipeline leaves the input array intact
and renders from a fresh reference. -/
theorem view_pipeline_no_mutation_witness :
    (0 : ℕ) < ([[mkProc 1 0]] : Store).length
    ∧ readArr (sortedProcessesOp [[mkProc 1 0]] 0 [] SortKey.cpu true).1 0
        = readArr [[mkProc 1 0]] 0
    ∧ (sortedProcessesOp [[mkProc 1 0]] 0 [] SortKey.cpu true).2 ≠ 0 :=
  ⟨by decide,
   (view_pipeline_no_mutation [[mkProc 1 0]] 0 [] SortKey.cpu true (by decide)).1,
   (view_pipeline_no_mutation [[mkProc 1 0]] 0 [] SortKey.cpu true (by decide)).2.2⟩

end Peep
